import Mathlib

/- Verification of the json-link library: a loader that reads a JSON document
   and recursively inlines other JSON documents referenced from string values
   carrying a `@` prefix. The definitions below are shallow embeddings of the
   JavaScript sources: the variable expander `replace`, the document loader
   `loadJSON`, the link resolver `resolve`, the `Source` descriptor of
   lib/source.js and the git access layer of lib/git.js. File reads and
   subprocess runs are modelled as explicit function parameters, so that the
   pure control flow of the library can be proved against them. -/

/- ## JavaScript string primitives -/

/-- Model of `value.substring(1)` (codepoint based; the library only applies it
    to ASCII reference strings). -/
def jsDrop1 (s : String) : String := String.mk (s.toList.drop 1)

/-- Model of the JavaScript test `s[0] == c`: true when the first character of
    the string is `c`, false on the empty string (where `s[0]` is undefined). -/
def headIs (c : Char) (s : String) : Bool :=
  match s.toList with
  | [] => false
  | c' :: _ => c' == c

/-- JavaScript `String.prototype.trim`: whitespace stripped from both ends. -/
def trimChars (cs : List Char) : List Char :=
  ((cs.dropWhile Char.isWhitespace).reverse.dropWhile Char.isWhitespace).reverse

/-- String wrapper for `trimChars`. -/
def jsTrim (s : String) : String := String.mk (trimChars s.toList)

/- ## Variable expander (function `replace` of lib/index.js)

   The source loops on the anchored regular expression
   `^(.*)\$\{(\w+)\}(.*)$`, appending the leading group and the looked-up
   value to the result and continuing on the trailing group only. Because
   the leading group `(.*)` is greedy, the token matched is the LAST
   `${name}` token of the remaining string. -/

/-- JavaScript word character class `\w`: ASCII letters, digits, underscore. -/
def isWordChar (c : Char) : Bool := c.isAlphanum || c == '_'

/-- Helper for `matchToken`: given the maximal word-character run and the
    remainder after it, the token succeeds when the run is nonempty and the
    remainder starts with the closing brace. -/
def matchTokenTail : List Char → List Char → Option (List Char × List Char)
  | nm, c3 :: t => if nm ≠ [] ∧ c3 = '\x7d' then some (nm, t) else none
  | _, [] => none

/-- Attempt to match the token pattern `\$\{(\w+)\}` at the head of the list.
    Returns the token name and the characters after the closing brace. The
    name run is maximal, as for a greedy `\w+` followed by a brace (which is
    not a word character). -/
def matchToken (cs : List Char) : Option (List Char × List Char) :=
  match cs with
  | c1 :: c2 :: rest =>
    if c1 = '$' ∧ c2 = '\x7b' then
      matchTokenTail (rest.takeWhile isWordChar) (rest.dropWhile isWordChar)
    else none
  | _ => none

/-- The split produced by `exec` with `^(.*)\$\{(\w+)\}(.*)$`: the greedy
    leading group makes the latest-starting complete token win. Returns
    (leading, name, trailing). -/
def rexec : List Char → Option (List Char × List Char × List Char)
  | [] => none
  | c :: rest =>
    match rexec rest with
    | some (l, n, t) => some (c :: l, n, t)
    | none =>
      match matchToken (c :: rest) with
      | some (n, t) => some ([], n, t)
      | none => none

/-- JavaScript line terminators, which the dot of the pattern cannot match. -/
def isLineTerm (c : Char) : Bool :=
  c == '\n' || c == '\r' || c == ' ' || c == ' '

/-- One full `exec` call: without the multiline flag a string containing a
    line terminator anywhere cannot match the anchored pattern at all (the
    terminator would have to fall inside one of the dot groups), so no
    substitution happens on such a string. -/
def jsExec (cs : List Char) : Option (List Char × List Char × List Char) :=
  if cs.any isLineTerm then none else rexec cs

/-- First-match association lookup, modelling property access on the variable
    context (treated as an own-property record of string values). -/
def lookupPair : List (List Char × List Char) → List Char → Option (List Char)
  | [], _ => none
  | (k, v) :: rest, n => if k = n then some v else lookupPair rest n

/-- Model of the expression `env[name] || two-quotes`: the bound value, or the
    empty string when the name is absent. (An empty bound value is falsy in
    JavaScript, but the alternative is again the empty string.) -/
def envVal (env : List (List Char × List Char)) (n : List Char) : List Char :=
  (lookupPair env n).getD []

/-- The replace loop, fuel indexed. Each iteration appends the leading text
    and the substituted value to the result and loops on the trailing text
    only; `length + 1` fuel always suffices because the trailing text is
    strictly shorter than its input. -/
def replaceFuel (env : List (List Char × List Char)) : Nat → List Char → List Char
  | 0, cs => cs
  | fuel + 1, cs =>
    match jsExec cs with
    | some (l, n, t) => l ++ envVal env n ++ replaceFuel env fuel t
    | none => cs

/-- Model of `replace(str, env)` on character lists. -/
def replaceL (env : List (List Char × List Char)) (cs : List Char) : List Char :=
  replaceFuel env (cs.length + 1) cs

/-- Model of `replace(str, env)` on strings. -/
def replaceStr (s : String) (env : List (String × String)) : String :=
  String.mk (replaceL (env.map (fun p => (p.1.toList, p.2.toList))) s.toList)

/-- Number of substitutions the replace loop performs. -/
def countSubsFuel : Nat → List Char → Nat
  | 0, _ => 0
  | fuel + 1, cs =>
    match jsExec cs with
    | some (_, _, t) => 1 + countSubsFuel fuel t
    | none => 0

/-- Substitution count of one `replace` run. -/
def countSubs (cs : List Char) : Nat := countSubsFuel (cs.length + 1) cs

/- ## Node.js posix path model (`path.dirname`, `path.join`, `path.resolve`) -/

/-- Split a character list on a separator character. -/
def splitChar (sep : Char) : List Char → List (List Char)
  | [] => [[]]
  | c :: rest =>
    match splitChar sep rest with
    | h :: t => if c = sep then [] :: h :: t else (c :: h) :: t
    | [] => [[c]]

/-- One step of path normalisation: empty and dot segments vanish; a dot-dot
    segment pops the previous segment, is kept at the start of a relative
    path, and is dropped at the root of an absolute one. The accumulator is
    kept reversed. -/
def normStep (abs : Bool) (acc : List (List Char)) (seg : List Char) : List (List Char) :=
  if seg = [] ∨ seg = ['.'] then acc
  else if seg = ['.', '.'] then
    match acc with
    | s :: rest => if s = ['.', '.'] then seg :: acc else rest
    | [] => if abs then [] else [seg]
  else seg :: acc

/-- Glue normalised segments back together with slashes. -/
def joinSegs : List (List Char) → List Char
  | [] => []
  | [s] => s
  | s :: rest => s ++ '/' :: joinSegs rest

/-- Node `path.normalize` (posix) on character lists. -/
def pathNormL (cs : List Char) : List Char :=
  let abs := match cs with | '/' :: _ => true | _ => false
  let segs := ((splitChar '/' cs).foldl (normStep abs) []).reverse
  if abs then '/' :: joinSegs segs
  else if segs = [] then ['.'] else joinSegs segs

/-- Node `path.normalize` (posix). -/
def pathNorm (p : String) : String := String.mk (pathNormL p.toList)

/-- Node `path.join(a, b)` (posix): concatenate with a slash and normalise. -/
def pathJoin (a b : String) : String :=
  if a = "" then pathNorm b
  else if b = "" then pathNorm a
  else String.mk (pathNormL (a.toList ++ '/' :: b.toList))

/-- Node `path.dirname` (posix) on character lists: drop trailing slashes,
    then drop the final path component and the slashes separating it. -/
def pathDirnameL (cs : List Char) : List Char :=
  let stripped := (cs.reverse.dropWhile (fun c => c = '/')).reverse
  if stripped = [] then (if cs = [] then ['.'] else ['/'])
  else
    let afterBase := stripped.reverse.dropWhile (fun c => c ≠ '/')
    let core := afterBase.dropWhile (fun c => c = '/')
    if core = [] then (if afterBase = [] then ['.'] else ['/'])
    else core.reverse

/-- Node `path.dirname` (posix). -/
def pathDirname (p : String) : String := String.mk (pathDirnameL p.toList)

/-- Node `path.resolve(dirname, p)` for an absolute `dirname`, which is the
    only way the library calls it: an absolute `p` wins, otherwise `p` is
    joined onto `dirname`. -/
def pathResolve (dirname p : String) : String :=
  if headIs '/' p then pathNorm p else pathJoin dirname p

/- ## Errors and the document loader (`loadJSON`) -/

/-- JavaScript error values as the loader observes them: file-system errors
    (from a file read or a failed process invocation) carry a string `code`
    property, ENOENT meaning a missing target; the SyntaxError thrown by
    `JSON.parse` has no code property. -/
inductive JsError where
  | fsErr (code : String)
  | syntaxErr
deriving DecidableEq

/-- The test `e.code == ENOENT-string` of the catch block in `loadJSON`. -/
def JsError.isENOENT : JsError → Bool
  | .fsErr code => code == "ENOENT"
  | .syntaxErr => false

/-- Parsed JSON values. -/
inductive Json where
  | null
  | bool (b : Bool)
  | num (n : Int)
  | str (s : String)
  | arr (xs : List Json)
  | obj (props : List (String × Json))

/-- Model of `loadJSON` (lib/index.js): the try block covers the file read and
    `JSON.parse`; the final `return resolve(data, source, env)` returns a
    promise WITHOUT awaiting it, so a rejection arising inside the recursive
    resolution is NOT intercepted by this catch block. The catch converts the
    caught error to null exactly when its code is ENOENT and the load is not
    required; every other caught error is rethrown unchanged. The read, the
    parser and the recursive resolver are abstracted as parameters. -/
def loadJSON (readRes : Except JsError String)
    (parseFn : String → Except JsError Json)
    (resolveFn : Json → Except JsError Json)
    (required : Bool) : Except JsError Json :=
  let attempt : Except JsError Json :=
    match readRes with
    | Except.error e => Except.error e
    | Except.ok json => parseFn json
  match attempt with
  | Except.ok data => resolveFn data
  | Except.error e =>
    if JsError.isENOENT e && !required then Except.ok Json.null else Except.error e

/- ## Source descriptor (class `Source` of lib/source.js) -/

/-- Split a character list at its first `#`, as `String.indexOf` does. -/
def splitHash : List Char → List Char × Option (List Char)
  | [] => ([], none)
  | c :: rest =>
    if c = '#' then ([], some rest)
    else
      let p := splitHash rest
      (c :: p.1, p.2)

/-- A file source reference: the optional repository root, the file path, and
    an optional commit-ish naming the revision. -/
structure Source where
  repoPath : Option String
  filePath : String
  commitish : Option String
deriving DecidableEq

/-- The `Source` constructor: when the supplied file path contains a `#`, the
    text before it becomes the stored file path and the text after it becomes
    the commit-ish, overriding the commit-ish argument; otherwise the path is
    stored whole together with the supplied commit-ish. -/
def Source.make (rp : Option String) (fp : String) (c : Option String) : Source :=
  match (splitHash fp.toList).2 with
  | some rev => ⟨rp, String.mk (splitHash fp.toList).1, some (String.mk rev)⟩
  | none => ⟨rp, fp, c⟩

/-- `Source.resolve(ref)`: a reference whose path starts with a slash is kept
    as is; otherwise it is joined onto the DIRECTORY of this file path. The
    new descriptor is built through the constructor with this `repoPath` and
    `commitish` carried over (a revision inside the reference text itself
    takes precedence inside the constructor). -/
def Source.resolveRef (s : Source) (ref : String) : Source :=
  let fp := if headIs '/' ref then ref else pathJoin (pathDirname s.filePath) ref
  Source.make s.repoPath fp s.commitish

/-- The string dispatch of the link resolver (`resolve` of lib/index.js) for
    a string carrying the `@` sigil: strip the sigil, expand variables, then
    detect and strip the required marker `!` on the EXPANDED text, resolve the
    remaining path against the containing source, and hand the new descriptor
    together with the required flag to `loadJSON`. Returns that pair; `none`
    models a string without the sigil, which is returned unchanged. -/
def resolveLink (value : String) (src : Source) (env : List (String × String)) :
    Option (Source × Bool) :=
  if headIs '@' value then
    let path0 := jsDrop1 value
    let path1 := replaceStr path0 env
    let required := headIs '!' path1
    let path2 := if headIs '!' path1 then jsDrop1 path1 else path1
    some (Source.resolveRef src path2, required)
  else none

/- ## Git access (lib/git.js) -/

/-- Outcome of a spawned process: the error event (the process could not be
    invoked at all) rejects the promise; the close event resolves it with the
    exit code and the captured output streams, whatever the exit code was. -/
inductive SpawnOutcome where
  | errored (e : JsError)
  | closed (code : Int) (stdout : String) (stderr : String)
deriving DecidableEq

/-- The record `{ code, stdout, stderr }` resolved by `git`. -/
structure GitResult where
  code : Int
  stdout : String
  stderr : String
deriving DecidableEq

/-- `function git(cwd, args)`: resolves with code, stdout and stderr on the
    close event, rejects on the error event. `run` abstracts the operating
    system executing the subprocess. -/
def git (run : String → List String → SpawnOutcome) (cwd : String)
    (args : List String) : Except JsError GitResult :=
  match run cwd args with
  | SpawnOutcome.errored e => Except.error e
  | SpawnOutcome.closed code out err => Except.ok ⟨code, out, err⟩

/-- The `commitish || master-string` defaulting; an empty string is falsy. -/
def commitishOrMaster : Option String → String
  | some s => if s = "" then ("master") else s
  | none => ("master")

/-- `function read(repoDir, path, commitish)` of lib/git.js: runs `git show`
    and returns ONLY the captured stdout of a completed run; the exit code
    and the stderr stream are destructured away and discarded. Only a failure
    to invoke the tool at all rejects. -/
def gitRead (run : String → List String → SpawnOutcome) (repoDir path : String)
    (commitish : Option String) : Except JsError String :=
  match git run repoDir [("show"), commitishOrMaster commitish ++ (":") ++ path] with
  | Except.ok r => Except.ok r.stdout
  | Except.error e => Except.error e

/-- `function isBare(path)` of lib/git.js: compares the trimmed stdout of
    `git rev-parse --is-bare-repository` against the string true; any
    rejection is swallowed by the catch block and yields false, so the
    function returns a plain boolean and never throws. -/
def isBare (run : String → List String → SpawnOutcome) (path : String) : Bool :=
  match git run path [("rev-parse"), ("--is-bare-repository")] with
  | Except.ok r => jsTrim r.stdout == "true"
  | Except.error _ => false

/-- A run in which the git binary starts but exits with status 128, printing
    a fatal diagnostic on stderr and nothing on stdout. -/
def runNonzeroExit : String → List String → SpawnOutcome :=
  fun _ _ => SpawnOutcome.closed 128 "" ("fatal: bad revision")

/- ## Heap model of the in-place object walk (`resolve` of lib/index.js)

   The resolver mutates JavaScript objects in place (`value[name] = await
   resolve(value[name], ...)`) but builds a NEW array for array input
   (`Promise.all(value.map(...))`). To state this, values are split into
   primitives and references into an explicit heap of object and array
   nodes; addresses are list indices and allocation appends at the end. -/

/-- JSON primitive values. -/
inductive JLit where
  | null
  | bool (b : Bool)
  | num (n : Int)
  | str (s : String)
deriving DecidableEq

/-- A value as the resolver sees it: a primitive, or a reference to an object
    or array node on the heap. -/
inductive JVal where
  | lit (l : JLit)
  | ref (a : Nat)
deriving DecidableEq

/-- A heap node: an object (ordered property list) or an array. -/
inductive JNode where
  | obj (props : List (String × JVal))
  | arr (elems : List JVal)

/-- The heap: node addresses are list indices; allocation appends. -/
abbrev Heap := List JNode

/-- Property read `value[name]`. -/
def lookupProp : List (String × JVal) → String → Option JVal
  | [], _ => none
  | (k, v) :: rest, n => if k = n then some v else lookupProp rest n

/-- Property write `value[name] = x`: overwrite the existing binding in place,
    or append a new binding when the key is absent. -/
def setProp : List (String × JVal) → String → JVal → List (String × JVal)
  | [], k, v => [(k, v)]
  | (k', v') :: rest, k, v =>
    if k' = k then (k, v) :: rest else (k', v') :: setProp rest k v

/-- One iteration of the for-in loop: read the property value from the current
    node, resolve it (which may grow or mutate the heap), then write the
    result back onto the node being iterated, at its unchanged address. -/
def objStep (f : JVal → Heap → JVal × Heap) (a : Nat) (k : String) (σ : Heap) : Heap :=
  match σ[a]? with
  | some (JNode.obj props) =>
    match lookupProp props k with
    | some v =>
      match (f v σ).2[a]? with
      | some (JNode.obj props1) => (f v σ).2.set a (JNode.obj (setProp props1 k (f v σ).1))
      | _ => (f v σ).2
    | none => σ
  | _ => σ

/-- The for-in loop over the keys captured from the object. -/
def resolveObjF (f : JVal → Heap → JVal × Heap) (a : Nat) :
    List String → Heap → Heap
  | [], σ => σ
  | k :: ks, σ => resolveObjF f a ks (objStep f a k σ)

/-- Element-wise resolution of an array, threading the heap left to right. -/
def resolveListF (f : JVal → Heap → JVal × Heap) :
    List JVal → Heap → List JVal × Heap
  | [], σ => ([], σ)
  | v :: vs, σ =>
    ((f v σ).1 :: (resolveListF f vs (f v σ).2).1, (resolveListF f vs (f v σ).2).2)

/-- The link resolver dispatch of `resolve` (lib/index.js): a string carrying
    the sigil is handed to the loader (abstracted as `load`, which may
    allocate fresh nodes); any other primitive is returned unchanged; an
    array is mapped element-wise and a NEW array node is allocated for the
    results; an object is walked key by key, each property overwritten in
    place on the SAME node, whose address is returned. Fuel bounds the
    recursion depth of the embedding. -/
def resolveV (load : String → Heap → JVal × Heap) : Nat → JVal → Heap → JVal × Heap
  | 0, v, σ => (v, σ)
  | fuel + 1, v, σ =>
    match v with
    | JVal.lit (JLit.str s) =>
      if headIs '@' s then load s σ else (JVal.lit (JLit.str s), σ)
    | JVal.lit l => (JVal.lit l, σ)
    | JVal.ref a =>
      match σ[a]? with
      | some (JNode.arr elems) =>
        (JVal.ref (resolveListF (resolveV load fuel) elems σ).2.length,
          (resolveListF (resolveV load fuel) elems σ).2
            ++ [JNode.arr (resolveListF (resolveV load fuel) elems σ).1])
      | some (JNode.obj props) =>
        (JVal.ref a, resolveObjF (resolveV load fuel) a (props.map Prod.fst) σ)
      | none => (JVal.ref a, σ)

/-- Heap evolution invariant of the resolver: the heap only grows, and every
    object node keeps its address and its key list (in order). -/
def sameShape (σ τ : Heap) : Prop :=
  σ.length ≤ τ.length ∧
  ∀ (a : Nat) (props : List (String × JVal)), σ[a]? = some (JNode.obj props) →
    ∃ props', τ[a]? = some (JNode.obj props') ∧ props'.map Prod.fst = props.map Prod.fst

/- ## Lemmas about the variable expander -/

/-- A successful token match at the head decomposes the input. -/
lemma matchToken_sound : ∀ (cs n t : List Char), matchToken cs = some (n, t) →
    cs = '$' :: '\x7b' :: (n ++ '\x7d' :: t) ∧ n ≠ [] := by
  intro cs n t h
  match cs with
  | [] => simp [matchToken] at h
  | [c] => simp [matchToken] at h
  | c1 :: c2 :: rest =>
    simp only [matchToken] at h
    by_cases h12 : c1 = '$' ∧ c2 = '\x7b'
    · rw [if_pos h12] at h
      obtain ⟨rfl, rfl⟩ := h12
      cases hdw : rest.dropWhile isWordChar with
      | nil => rw [hdw] at h; simp [matchTokenTail] at h
      | cons c3 t' =>
        rw [hdw] at h
        by_cases hcond : rest.takeWhile isWordChar ≠ [] ∧ c3 = '\x7d'
        · simp only [matchTokenTail] at h
          rw [if_pos hcond] at h
          obtain ⟨hnm, rfl⟩ := hcond
          simp only [Option.some.injEq, Prod.mk.injEq] at h
          obtain ⟨hn, ht⟩ := h
          refine ⟨?_, by rw [← hn]; exact hnm⟩
          have hr : rest = rest.takeWhile isWordChar ++ '\x7d' :: t' := by
            conv_lhs => rw [← List.takeWhile_append_dropWhile (p := isWordChar) (l := rest)]
            rw [hdw]
          rw [← hn, ← ht]
          conv_lhs => rw [hr]
        · simp only [matchTokenTail] at h
          rw [if_neg hcond] at h
          exact absurd h (by simp)
    · rw [if_neg h12] at h; exact absurd h (by simp)

/-- A successful regular-expression split decomposes the input into the
    leading text, the matched token and the trailing text. -/
lemma rexec_sound : ∀ (cs l n t : List Char), rexec cs = some (l, n, t) →
    cs = l ++ '$' :: '\x7b' :: (n ++ '\x7d' :: t) ∧ n ≠ [] := by
  intro cs
  induction cs with
  | nil => intro l n t h; simp [rexec] at h
  | cons c rest ih =>
    intro l n t h
    simp only [rexec] at h
    cases hr : rexec rest with
    | some p =>
      obtain ⟨l', n', t'⟩ := p
      rw [hr] at h
      simp only [Option.some.injEq, Prod.mk.injEq] at h
      obtain ⟨rfl, rfl, rfl⟩ := h
      obtain ⟨hrest, hn⟩ := ih l' n' t' hr
      exact ⟨by rw [List.cons_append, ← hrest], hn⟩
    | none =>
      rw [hr] at h
      cases hm : matchToken (c :: rest) with
      | none => rw [hm] at h; exact absurd h (by simp)
      | some q =>
        obtain ⟨n', t'⟩ := q
        rw [hm] at h
        simp only [Option.some.injEq, Prod.mk.injEq] at h
        obtain ⟨rfl, rfl, rfl⟩ := h
        obtain ⟨hcs, hn⟩ := matchToken_sound (c :: rest) n' t' hm
        exact ⟨by simpa using hcs, hn⟩

/-- The trailing text is strictly shorter than the input. -/
lemma rexec_shrink (cs l n t : List Char) (h : rexec cs = some (l, n, t)) :
    t.length < cs.length := by
  obtain ⟨hcs, -⟩ := rexec_sound cs l n t h
  rw [hcs]
  simp [List.length_append]
  omega

/-- The full exec model only succeeds when the bare split does. -/
lemma jsExec_rexec (cs : List Char) (p : List Char × List Char × List Char)
    (h : jsExec cs = some p) : rexec cs = some p := by
  unfold jsExec at h
  by_cases ha : cs.any isLineTerm = true
  · rw [if_pos ha] at h; exact absurd h (by simp)
  · rw [if_neg ha] at h; exact h

/-- Any fuel at least the input length gives the same replace result. -/
lemma replaceFuel_stable (env : List (List Char × List Char)) :
    ∀ (m : Nat) (cs : List Char), cs.length ≤ m → ∀ (f g : Nat),
      cs.length ≤ f → cs.length ≤ g →
      replaceFuel env (f + 1) cs = replaceFuel env (g + 1) cs := by
  intro m
  induction m with
  | zero =>
    intro cs hm f g hf hg
    have hcs : cs = [] := List.eq_nil_of_length_eq_zero (Nat.le_zero.mp hm)
    subst hcs
    simp [replaceFuel, jsExec, rexec]
  | succ m ih =>
    intro cs hm f g hf hg
    cases hj : jsExec cs with
    | none =>
      have e1 : replaceFuel env (f + 1) cs = cs := by simp only [replaceFuel, hj]
      have e2 : replaceFuel env (g + 1) cs = cs := by simp only [replaceFuel, hj]
      rw [e1, e2]
    | some p =>
      obtain ⟨l, n, t⟩ := p
      have hlt : t.length < cs.length := rexec_shrink cs l n t (jsExec_rexec cs _ hj)
      obtain ⟨f', rfl⟩ : ∃ f', f = f' + 1 := ⟨f - 1, by omega⟩
      obtain ⟨g', rfl⟩ : ∃ g', g = g' + 1 := ⟨g - 1, by omega⟩
      have e1 : replaceFuel env (f' + 1 + 1) cs
          = l ++ envVal env n ++ replaceFuel env (f' + 1) t := by
        simp only [replaceFuel, hj]
      have e2 : replaceFuel env (g' + 1 + 1) cs
          = l ++ envVal env n ++ replaceFuel env (g' + 1) t := by
        simp only [replaceFuel, hj]
      rw [e1, e2, ih t (by omega) f' g' (by omega) (by omega)]

/-- One unfolding of a full replace run: the leading text and the substituted
    value are emitted as they are, and the run continues on the trailing text
    of the original input only. -/
lemma replaceL_step (env : List (List Char × List Char)) (cs l n t : List Char)
    (h : jsExec cs = some (l, n, t)) :
    replaceL env cs = l ++ envVal env n ++ replaceL env t := by
  have hlt : t.length < cs.length := rexec_shrink cs l n t (jsExec_rexec cs _ h)
  have e1 : replaceFuel env (cs.length + 1) cs
      = l ++ envVal env n ++ replaceFuel env cs.length t := by
    simp only [replaceFuel, h]
  unfold replaceL
  rw [e1]
  obtain ⟨k, hk⟩ : ∃ k, cs.length = k + 1 := ⟨cs.length - 1, by omega⟩
  rw [hk]
  rw [replaceFuel_stable env t.length t (le_refl _) k t.length (by omega) (le_refl _)]

/-- The number of substitutions is bounded by the number of dollar signs of
    the original input, for any fuel. -/
lemma countSubsFuel_le : ∀ (fuel : Nat) (cs : List Char),
    countSubsFuel fuel cs ≤ cs.count '$' := by
  intro fuel
  induction fuel with
  | zero => intro cs; simp [countSubsFuel]
  | succ f ih =>
    intro cs
    cases hj : jsExec cs with
    | none =>
      have e : countSubsFuel (f + 1) cs = 0 := by simp only [countSubsFuel, hj]
      rw [e]
      simp
    | some p =>
      obtain ⟨l, n, t⟩ := p
      have e : countSubsFuel (f + 1) cs = 1 + countSubsFuel f t := by
        simp only [countSubsFuel, hj]
      rw [e]
      obtain ⟨hcs, -⟩ := rexec_sound cs l n t (jsExec_rexec cs _ hj)
      subst hcs
      have ht := ih t
      have h1 : ('$' :: '\x7b' :: (n ++ '\x7d' :: t)).count '$'
          = ('\x7b' :: (n ++ '\x7d' :: t)).count '$' + 1 := List.count_cons_self _ _
      have h2 : t.count '$' ≤ ('\x7b' :: (n ++ '\x7d' :: t)).count '$' := by
        calc t.count '$' ≤ ('\x7d' :: t).count '$' := by
              rw [List.count_cons]; exact Nat.le_add_right _ _
          _ ≤ (n ++ '\x7d' :: t).count '$' := by
              rw [List.count_append]; exact Nat.le_add_left _ _
          _ ≤ ('\x7b' :: (n ++ '\x7d' :: t)).count '$' := by
              rw [List.count_cons]; exact Nat.le_add_right _ _
      rw [List.count_append, h1]
      omega

/- ## Lemmas about the Source constructor split -/

/-- A hash-free list is returned whole with no revision. -/
lemma splitHash_no_hash : ∀ (cs : List Char), (∀ c ∈ cs, c ≠ '#') →
    splitHash cs = (cs, none) := by
  intro cs
  induction cs with
  | nil => intro h; simp [splitHash]
  | cons c rest ih =>
    intro h
    have hc : c ≠ '#' := h c (List.mem_cons_self c rest)
    simp only [splitHash, if_neg hc]
    rw [ih (fun x hx => h x (List.mem_cons_of_mem c hx))]

/-- The split cuts at the first hash. -/
lemma splitHash_first : ∀ (pre post : List Char), (∀ c ∈ pre, c ≠ '#') →
    splitHash (pre ++ '#' :: post) = (pre, some post) := by
  intro pre
  induction pre with
  | nil => intro post h; simp [splitHash]
  | cons c rest ih =>
    intro post h
    have hc : c ≠ '#' := h c (List.mem_cons_self c rest)
    simp only [List.cons_append, splitHash, if_neg hc, List.append_eq]
    rw [ih post (fun x hx => h x (List.mem_cons_of_mem c hx))]

/-- The part before the cut never contains a hash. -/
lemma splitHash_pre_no_hash : ∀ (cs : List Char) (c : Char),
    c ∈ (splitHash cs).1 → c ≠ '#' := by
  intro cs
  induction cs with
  | nil => intro c hc; simp [splitHash] at hc
  | cons a rest ih =>
    intro c hc
    by_cases ha : a = '#'
    · simp [splitHash, ha] at hc
    · simp only [splitHash, if_neg ha] at hc
      rcases List.mem_cons.mp hc with rfl | hmem
      · exact ha
      · exact ih c hmem

/-- When no revision is split off, the input had no hash at all. -/
lemma splitHash_none_all : ∀ (cs : List Char), (splitHash cs).2 = none →
    ∀ c ∈ cs, c ≠ '#' := by
  intro cs
  induction cs with
  | nil => intro _ c hc; simp at hc
  | cons a rest ih =>
    intro h2 c hc
    by_cases ha : a = '#'
    · subst ha; simp [splitHash] at h2
    · simp only [splitHash, if_neg ha] at h2
      rcases List.mem_cons.mp hc with rfl | hmem
      · exact ha
      · exact ih h2 c hmem

/- ## Lemmas about the heap model -/

/-- A successful optional index read is within bounds. -/
lemma heapGetLt {α : Type} (l : List α) (n : Nat) (x : α) (h : l[n]? = some x) :
    n < l.length := by
  rcases List.getElem?_eq_some.mp h with ⟨hl, -⟩
  exact hl

/-- Reading below the length of the left part of an append. -/
lemma heapGetAppend {α : Type} (l1 l2 : List α) (n : Nat) (h : n < l1.length) :
    (l1 ++ l2)[n]? = l1[n]? := by
  rw [List.getElem?_append]
  simp [h]

/-- Reading back an in-bounds write. -/
lemma heapGetSetSelf {α : Type} (l : List α) (i : Nat) (x : α) (h : i < l.length) :
    (l.set i x)[i]? = some x := by
  rw [List.getElem?_set_self]
  · simp [h]

/-- A write does not affect other addresses. -/
lemma heapGetSetNe {α : Type} (l : List α) (i j : Nat) (x : α) (h : i ≠ j) :
    (l.set i x)[j]? = l[j]? := List.getElem?_set_ne h

lemma sameShape_refl (σ : Heap) : sameShape σ σ :=
  ⟨le_refl _, fun _ props h => ⟨props, h, rfl⟩⟩

lemma sameShape_trans {σ τ ρ : Heap} (h1 : sameShape σ τ) (h2 : sameShape τ ρ) :
    sameShape σ ρ := by
  refine ⟨le_trans h1.1 h2.1, ?_⟩
  intro a props h
  obtain ⟨p1, hp1, hk1⟩ := h1.2 a props h
  obtain ⟨p2, hp2, hk2⟩ := h2.2 a p1 hp1
  exact ⟨p2, hp2, hk2.trans hk1⟩

lemma sameShape_append (σ ext : Heap) : sameShape σ (σ ++ ext) := by
  refine ⟨by simp, ?_⟩
  intro a props h
  exact ⟨props, by rw [heapGetAppend σ ext a (heapGetLt σ a _ h)]; exact h, rfl⟩

/-- A found key belongs to the key list. -/
lemma lookupProp_mem : ∀ (props : List (String × JVal)) (k : String) (v : JVal),
    lookupProp props k = some v → k ∈ props.map Prod.fst := by
  intro props
  induction props with
  | nil => intro k v h; simp [lookupProp] at h
  | cons p rest ih =>
    intro k v h
    obtain ⟨k', v'⟩ := p
    by_cases hk : k' = k
    · subst hk; simp
    · simp only [lookupProp, if_neg hk] at h
      simp [ih k v h]

/-- Overwriting an existing key preserves the key list. -/
lemma setProp_keys : ∀ (props : List (String × JVal)) (k : String) (v : JVal),
    k ∈ props.map Prod.fst → (setProp props k v).map Prod.fst = props.map Prod.fst := by
  intro props
  induction props with
  | nil => intro k v h; simp at h
  | cons p rest ih =>
    intro k v h
    obtain ⟨k', v'⟩ := p
    by_cases hk : k' = k
    · subst hk; simp [setProp]
    · simp only [setProp, if_neg hk, List.map_cons]
      have hmem : k ∈ rest.map Prod.fst := by
        have h' : k ∈ k' :: rest.map Prod.fst := h
        rcases List.mem_cons.mp h' with h'' | h''
        · exact absurd h''.symm hk
        · exact h''
      rw [ih k v hmem]

/-- One for-in iteration preserves the shape invariant, provided the inner
    resolution does. -/
lemma objStep_shape (f : JVal → Heap → JVal × Heap)
    (Hf : ∀ v σ, sameShape σ (f v σ).2) (a : Nat) (k : String) (σ : Heap) :
    sameShape σ (objStep f a k σ) := by
  cases hσ : σ[a]? with
  | none =>
    have e : objStep f a k σ = σ := by simp only [objStep, hσ]
    rw [e]
    exact sameShape_refl σ
  | some node =>
    cases node with
    | arr es =>
      have e : objStep f a k σ = σ := by simp only [objStep, hσ]
      rw [e]
      exact sameShape_refl σ
    | obj props =>
      cases hlk : lookupProp props k with
      | none =>
        have e : objStep f a k σ = σ := by simp only [objStep, hσ, hlk]
        rw [e]
        exact sameShape_refl σ
      | some v =>
        cases hp2 : (f v σ).2[a]? with
        | none =>
          have e : objStep f a k σ = (f v σ).2 := by simp only [objStep, hσ, hlk, hp2]
          rw [e]
          exact Hf v σ
        | some node1 =>
          cases node1 with
          | arr es1 =>
            have e : objStep f a k σ = (f v σ).2 := by simp only [objStep, hσ, hlk, hp2]
            rw [e]
            exact Hf v σ
          | obj props1 =>
            have e : objStep f a k σ
                = (f v σ).2.set a (JNode.obj (setProp props1 k (f v σ).1)) := by
              simp only [objStep, hσ, hlk, hp2]
            rw [e]
            have hfs := Hf v σ
            refine ⟨?_, ?_⟩
            · rw [List.length_set]; exact hfs.1
            · intro b pb hb
              obtain ⟨pb1, hb1, hkeys⟩ := hfs.2 b pb hb
              by_cases hab : a = b
              · subst hab
                have hpb : props = pb := by
                  rw [hσ] at hb
                  injection hb with hb'
                  injection hb' with hb''
                have hpb1 : props1 = pb1 := by
                  rw [hp2] at hb1
                  injection hb1 with hb1'
                  injection hb1' with hb1''
                subst hpb
                subst hpb1
                have hlt : a < (f v σ).2.length := heapGetLt _ a _ hb1
                refine ⟨setProp props1 k (f v σ).1, heapGetSetSelf _ a _ hlt, ?_⟩
                have hkin : k ∈ props1.map Prod.fst := by
                  rw [hkeys]
                  exact lookupProp_mem props k v hlk
                exact (setProp_keys props1 k (f v σ).1 hkin).trans hkeys
              · refine ⟨pb1, ?_, hkeys⟩
                rw [heapGetSetNe _ a b _ hab]
                exact hb1

/-- The whole for-in loop preserves the shape invariant. -/
lemma resolveObjF_shape (f : JVal → Heap → JVal × Heap)
    (Hf : ∀ v σ, sameShape σ (f v σ).2) (a : Nat) :
    ∀ (ks : List String) (σ : Heap), sameShape σ (resolveObjF f a ks σ) := by
  intro ks
  induction ks with
  | nil => intro σ; simp only [resolveObjF]; exact sameShape_refl σ
  | cons k ks ih =>
    intro σ
    simp only [resolveObjF]
    exact sameShape_trans (objStep_shape f Hf a k σ) (ih (objStep f a k σ))

/-- Element-wise resolution preserves the shape invariant. -/
lemma resolveListF_shape (f : JVal → Heap → JVal × Heap)
    (Hf : ∀ v σ, sameShape σ (f v σ).2) :
    ∀ (vs : List JVal) (σ : Heap), sameShape σ (resolveListF f vs σ).2 := by
  intro vs
  induction vs with
  | nil => intro σ; simp only [resolveListF]; exact sameShape_refl σ
  | cons v vs ih =>
    intro σ
    simp only [resolveListF]
    exact sameShape_trans (Hf v σ) (ih (f v σ).2)

/-- The resolver preserves the shape invariant at every fuel, provided the
    loader only ever appends fresh nodes to the heap. -/
lemma resolveV_shape (load : String → Heap → JVal × Heap)
    (Hload : ∀ s σ, ∃ ext, (load s σ).2 = σ ++ ext) :
    ∀ (fuel : Nat) (v : JVal) (σ : Heap), sameShape σ (resolveV load fuel v σ).2 := by
  intro fuel
  induction fuel with
  | zero => intro v σ; simp only [resolveV]; exact sameShape_refl σ
  | succ fuel ih =>
    intro v σ
    cases v with
    | lit l =>
      cases l with
      | str s =>
        simp only [resolveV]
        by_cases hs : headIs '@' s = true
        · rw [if_pos hs]
          obtain ⟨ext, hext⟩ := Hload s σ
          rw [hext]
          exact sameShape_append σ ext
        · rw [if_neg hs]
          exact sameShape_refl σ
      | null => simp only [resolveV]; exact sameShape_refl σ
      | bool b => simp only [resolveV]; exact sameShape_refl σ
      | num n => simp only [resolveV]; exact sameShape_refl σ
    | ref a =>
      cases hσ : σ[a]? with
      | none =>
        have e : (resolveV load (fuel + 1) (JVal.ref a) σ).2 = σ := by
          simp only [resolveV, hσ]
        rw [e]
        exact sameShape_refl σ
      | some node =>
        cases node with
        | arr elems =>
          have e : (resolveV load (fuel + 1) (JVal.ref a) σ).2
              = (resolveListF (resolveV load fuel) elems σ).2
                  ++ [JNode.arr (resolveListF (resolveV load fuel) elems σ).1] := by
            simp only [resolveV, hσ]
          rw [e]
          exact sameShape_trans (resolveListF_shape _ ih elems σ) (sameShape_append _ _)
        | obj props =>
          have e : (resolveV load (fuel + 1) (JVal.ref a) σ).2
              = resolveObjF (resolveV load fuel) a (props.map Prod.fst) σ := by
            simp only [resolveV, hσ]
          rw [e]
          exact resolveObjF_shape _ ih a (props.map Prod.fst) σ

/- ## Claim theorems -/

/-- C1: for a `loadJSON` call whose file read fails, the result is null
    exactly when the failure is a NotFound (code ENOENT) and the reference is
    optional (required = false); any other read failure, or a NotFound when
    required is true, is propagated to the caller unchanged. -/
theorem loadJSON_notFound_policy :
    ∀ (parseFn : String → Except JsError Json) (resolveFn : Json → Except JsError Json)
      (required : Bool) (e : JsError),
      (loadJSON (Except.error e) parseFn resolveFn required = Except.ok Json.null ↔
        (JsError.isENOENT e = true ∧ required = false)) ∧
      ((JsError.isENOENT e = false ∨ required = true) →
        loadJSON (Except.error e) parseFn resolveFn required = Except.error e) := by
  intro parseFn resolveFn required e
  cases he : JsError.isENOENT e <;> cases required <;> simp [loadJSON, he]

/-- C1 witness: a missing optional file loads as null. -/
theorem loadJSON_notFound_policy_witness :
    loadJSON (Except.error (JsError.fsErr ("ENOENT")))
      (fun _ => Except.ok Json.null) (fun v => Except.ok v) false = Except.ok Json.null :=
  ((loadJSON_notFound_policy (fun _ => Except.ok Json.null) (fun v => Except.ok v)
      false (JsError.fsErr ("ENOENT"))).1).mpr ⟨by decide, rfl⟩

/-- C2: evaluation of the embedded `replace` at the failing input. With two
    variable tokens and both names bound, only the LAST token is substituted;
    the first is emitted verbatim, because the greedy leading group of
    `^(.*)\$\{(\w+)\}(.*)$` swallows it and the leading group is never
    reprocessed. The documented behaviour (all references replaced) would
    give the string 12. -/
theorem replace_only_last_token :
    replaceStr ("$\x7ba\x7d$\x7bb\x7d") [(("a"), ("1")), (("b"), ("2"))] = "$\x7ba\x7d2" := rfl

/-- C3 counterexample: the required marker is detected on the EXPANDED text,
    not on the raw text after the sigil as the claim states. Here the raw
    text after `@` starts with a variable token (not with `!`), yet because
    the variable value starts with `!` the code computes required = true and
    loads the path with the marker stripped. Under the claim as stated the
    call would be optional (required = false) with path /x/!d.json. -/
theorem resolver_marker_after_expansion :
    resolveLink ("@$\x7bm\x7dd.json") (Source.make none ("/x/a.json") none) [(("m"), ("!"))]
      = some (⟨none, "/x/d.json", none⟩, true) := rfl

/-- C3 (amended): for a string with the `@` sigil the resolver strips the
    sigil, expands variable tokens against the context, THEN sets
    required = true and strips the marker when the expanded text starts with
    `!` (else required = false), re-bases the resulting reference against the
    containing descriptor and loads it with that flag. The two concrete
    conjuncts exercise the full pipeline: variable expansion inside the path,
    marker stripping, directory re-basing and revision splitting. -/
theorem resolver_link_pipeline :
    (∀ (value : String) (src : Source) (env : List (String × String)),
       headIs '@' value = true →
       resolveLink value src env =
         (if headIs '!' (replaceStr (jsDrop1 value) env)
          then some (Source.resolveRef src (jsDrop1 (replaceStr (jsDrop1 value) env)), true)
          else some (Source.resolveRef src (replaceStr (jsDrop1 value) env), false))) ∧
    resolveLink ("@lang/$\x7blocale\x7d/data.json") (Source.make none ("/x/a.json") none)
        [(("locale"), ("en"))] = some (⟨none, "/x/lang/en/data.json", none⟩, false) ∧
    resolveLink ("@!b.json#v2") (Source.make none ("/x/a.json") none) []
        = some (⟨none, "/x/b.json", some ("v2")⟩, true) := by
  refine ⟨?_, rfl, rfl⟩
  intro value src env h
  by_cases hb : headIs '!' (replaceStr (jsDrop1 value) env) = true
  · simp [resolveLink, h, hb]
  · simp [resolveLink, h, hb]

/-- C3 witness: the general pipeline applied to a plain required link. -/
theorem resolver_link_pipeline_witness :
    resolveLink ("@!d.json") (Source.make none ("/x/a.json") none) [] =
      (if headIs '!' (replaceStr (jsDrop1 ("@!d.json")) [])
       then some (Source.resolveRef (Source.make none ("/x/a.json") none)
           (jsDrop1 (replaceStr (jsDrop1 ("@!d.json")) [])), true)
       else some (Source.resolveRef (Source.make none ("/x/a.json") none)
           (replaceStr (jsDrop1 ("@!d.json")) []), false)) :=
  (resolver_link_pipeline).1 ("@!d.json") (Source.make none ("/x/a.json") none) [] rfl

/-- C4: `Source.resolve` keeps an absolute reference path untouched (it is
    never re-based against the containing descriptor), joins a relative
    reference onto the DIRECTORY of the containing file path (so `@b.json`
    inside /x/a.json resolves to /x/b.json and `@../c.json` inside
    /x/y/a.json resolves to /x/c.json), and for a relative reference the
    result depends only on that directory, never on the file name itself. -/
theorem source_resolve_rebases :
    (∀ (s : Source) (r : String), headIs '/' r = true → (∀ ch ∈ r.toList, ch ≠ '#') →
       (Source.resolveRef s r).filePath = r) ∧
    (Source.resolveRef (Source.make none ("/x/a.json") none) ("b.json")).filePath
        = "/x/b.json" ∧
    (Source.resolveRef (Source.make none ("/x/y/a.json") none) ("../c.json")).filePath
        = "/x/c.json" ∧
    (∀ (s1 s2 : Source) (r : String), headIs '/' r = false →
       pathDirname s1.filePath = pathDirname s2.filePath → s1.repoPath = s2.repoPath →
       s1.commitish = s2.commitish → Source.resolveRef s1 r = Source.resolveRef s2 r) := by
  refine ⟨?_, rfl, rfl, ?_⟩
  · intro s r hr hhash
    have hsplit := splitHash_no_hash r.toList hhash
    simp only [String.toList] at hsplit
    simp [Source.resolveRef, hr, Source.make, hsplit]
  · intro s1 s2 r hr hd hrepo hcom
    simp [Source.resolveRef, hr, hd, hrepo, hcom]

/-- C4 witness: an absolute reference survives re-basing unchanged. -/
theorem source_resolve_rebases_witness :
    (Source.resolveRef (Source.make none ("/x/a.json") none) ("/abs.json")).filePath
      = "/abs.json" :=
  (source_resolve_rebases).1 (Source.make none ("/x/a.json") none) ("/abs.json") rfl
    (by decide)

/-- C5: a parse failure (the SyntaxError of JSON.parse, which carries no
    ENOENT code) propagates out of `loadJSON` unchanged for BOTH values of
    the required flag; it is never converted to null. -/
theorem loadJSON_parse_failure_fatal :
    ∀ (json : String) (parseFn : String → Except JsError Json)
      (resolveFn : Json → Except JsError Json) (required : Bool),
      parseFn json = Except.error JsError.syntaxErr →
      loadJSON (Except.ok json) parseFn resolveFn required
        = Except.error JsError.syntaxErr := by
  intro json parseFn resolveFn required h
  simp [loadJSON, h, JsError.isENOENT]

/-- C5 witness: invalid JSON is fatal even for an optional reference. -/
theorem loadJSON_parse_failure_fatal_witness :
    loadJSON (Except.ok ("not json")) (fun _ => Except.error JsError.syntaxErr)
      (fun v => Except.ok v) false = Except.error JsError.syntaxErr :=
  loadJSON_parse_failure_fatal ("not json") (fun _ => Except.error JsError.syntaxErr)
    (fun v => Except.ok v) false rfl

/-- C6 counterexample: the git binary runs and exits with status 128 with a
    fatal diagnostic on stderr, yet `read` resolves successfully with the
    captured (empty) stdout instead of failing with the exit code and the
    diagnostic in an error payload. -/
theorem gitRead_nonzero_exit_resolves :
    gitRead runNonzeroExit ("/repo") ("data.json") none = Except.ok "" ∧
    runNonzeroExit ("/repo") [("show"), ("master:data.json")]
      = SpawnOutcome.closed 128 "" ("fatal: bad revision") := ⟨rfl, rfl⟩

/-- C6 (amended): `read(repoDir, path, commitish)` rejects exactly when the
    subprocess cannot be invoked (the spawn error event), propagating that
    error; when the tool runs to completion it resolves with the captured
    stdout regardless of the exit status, and the exit code and stderr are
    discarded. -/
theorem gitRead_outcome :
    ∀ (run : String → List String → SpawnOutcome) (repoDir path : String)
      (c : Option String),
      (∀ e, run repoDir [("show"), commitishOrMaster c ++ (":") ++ path]
          = SpawnOutcome.errored e →
         gitRead run repoDir path c = Except.error e) ∧
      (∀ (code : Int) (out err : String),
         run repoDir [("show"), commitishOrMaster c ++ (":") ++ path]
            = SpawnOutcome.closed code out err →
         gitRead run repoDir path c = Except.ok out) := by
  intro run repoDir path c
  constructor
  · intro e h
    simp [gitRead, git, h]
  · intro code out err h
    simp [gitRead, git, h]

/-- C6 witness: a completed run with a non-zero exit resolves with stdout. -/
theorem gitRead_outcome_witness :
    gitRead runNonzeroExit ("/repo") ("data.json") none = Except.ok "" :=
  (gitRead_outcome runNonzeroExit ("/repo") ("data.json") none).2 128 ""
    ("fatal: bad revision") rfl

/-- C7: `isBare(path)` returns true exactly when the introspection subprocess
    runs to completion and its trimmed stdout is the string true; a process
    that cannot be invoked (error event) yields false. Its type is a plain
    boolean: the catch block swallows every rejection, so no error escapes. -/
theorem isBare_characterization :
    ∀ (run : String → List String → SpawnOutcome) (path : String),
      (isBare run path = true ↔
        ∃ (code : Int) (out err : String),
          run path [("rev-parse"), ("--is-bare-repository")]
            = SpawnOutcome.closed code out err ∧ jsTrim out = "true") ∧
      (∀ e, run path [("rev-parse"), ("--is-bare-repository")]
          = SpawnOutcome.errored e → isBare run path = false) := by
  intro run path
  cases h : run path [("rev-parse"), ("--is-bare-repository")] with
  | errored e =>
    constructor
    · constructor
      · intro hb
        simp [isBare, git, h] at hb
      · rintro ⟨code, out, err, heq, -⟩
        exact absurd heq (by simp)
    · intro e' _
      simp [isBare, git, h]
  | closed code out err =>
    constructor
    · constructor
      · intro hb
        refine ⟨code, out, err, rfl, ?_⟩
        simpa [isBare, git, h] using hb
      · rintro ⟨c2, o2, e2, heq, htrim⟩
        injection heq with h1 h2 h3
        subst h2
        simp [isBare, git, h, htrim]
    · intro e' he
      exact absurd he (by simp)

/-- C7 witness: a bare repository is recognised from the trimmed stdout. -/
theorem isBare_characterization_witness :
    isBare (fun _ _ => SpawnOutcome.closed 0 ("true\n") "") ("/repo") = true :=
  ((isBare_characterization (fun _ _ => SpawnOutcome.closed 0 ("true\n") "") ("/repo")).1).mpr
    ⟨0, ("true\n"), "", rfl, by decide⟩

/-- C8: the `Source` constructor never stores a hash in `filePath`: when the
    supplied path contains a `#`, the part before the first hash becomes
    `filePath` and the part after it becomes the revision, overriding any
    separately supplied revision; a hash-free path is stored whole with the
    supplied revision. -/
theorem source_make_strips_revision :
    ∀ (rp : Option String) (fp : String) (c : Option String),
      (∀ ch ∈ (Source.make rp fp c).filePath.toList, ch ≠ '#') ∧
      (∀ (pre rev : List Char), fp.toList = pre ++ '#' :: rev →
         (∀ ch ∈ pre, ch ≠ '#') →
         Source.make rp fp c = ⟨rp, String.mk pre, some (String.mk rev)⟩) ∧
      ((∀ ch ∈ fp.toList, ch ≠ '#') → Source.make rp fp c = ⟨rp, fp, c⟩) := by
  intro rp fp c
  refine ⟨?_, ?_, ?_⟩
  · intro ch hch
    cases h2 : (splitHash fp.toList).2 with
    | some rev =>
      have e : Source.make rp fp c
          = ⟨rp, String.mk (splitHash fp.toList).1, some (String.mk rev)⟩ := by
        simp only [String.toList] at h2
        simp [Source.make, h2]
      rw [e] at hch
      exact splitHash_pre_no_hash fp.toList ch hch
    | none =>
      have e : Source.make rp fp c = ⟨rp, fp, c⟩ := by
        simp only [String.toList] at h2
        simp [Source.make, h2]
      rw [e] at hch
      exact splitHash_none_all fp.toList h2 ch hch
  · intro pre rev hsplit hpre
    have h := splitHash_first pre rev hpre
    rw [← hsplit] at h
    simp only [String.toList] at h
    simp [Source.make, h]
  · intro hfree
    have h := splitHash_no_hash fp.toList hfree
    simp only [String.toList] at h
    simp [Source.make, h]

/-- C8 witness: a revision-qualified path is split by the constructor. -/
theorem source_make_strips_revision_witness :
    Source.make none ("a.json#v1") none = ⟨none, "a.json", some ("v1")⟩ :=
  (source_make_strips_revision none ("a.json#v1") none).2.1
    (['a', '.', 'j', 's', 'o', 'n']) (['v', '1']) (by decide) (by decide)

/-- C9: when the resolver is applied to a reference to an object node it
    returns THAT very reference (the object is updated in place: the result
    heap still holds an object at the same address with the same keys in the
    same order, none added, removed or renamed), whereas for a reference to
    an array node it returns a reference to a strictly FRESH address, beyond
    every address of the input heap, holding a new array node. The loader is
    assumed only to append fresh nodes, which is what parsing a new document
    does. -/
theorem resolver_frame :
    ∀ (load : String → Heap → JVal × Heap) (fuel : Nat) (σ : Heap) (a : Nat),
      (∀ s σ0, ∃ ext, (load s σ0).2 = σ0 ++ ext) →
      ((∀ props, σ[a]? = some (JNode.obj props) →
          (resolveV load (fuel + 1) (JVal.ref a) σ).1 = JVal.ref a ∧
          ∃ props', ((resolveV load (fuel + 1) (JVal.ref a) σ).2)[a]?
              = some (JNode.obj props') ∧
            props'.map Prod.fst = props.map Prod.fst) ∧
       (∀ elems, σ[a]? = some (JNode.arr elems) →
          ∃ (b : Nat) (elems' : List JVal),
            (resolveV load (fuel + 1) (JVal.ref a) σ).1 = JVal.ref b ∧
            σ.length ≤ b ∧
            ((resolveV load (fuel + 1) (JVal.ref a) σ).2)[b]?
              = some (JNode.arr elems'))) := by
  intro load fuel σ a Hload
  constructor
  · intro props hσ
    constructor
    · simp only [resolveV, hσ]
    · have hred : (resolveV load (fuel + 1) (JVal.ref a) σ).2
          = resolveObjF (resolveV load fuel) a (props.map Prod.fst) σ := by
        simp only [resolveV, hσ]
      rw [hred]
      have hsh := resolveObjF_shape (resolveV load fuel)
        (resolveV_shape load Hload fuel) a (props.map Prod.fst) σ
      exact hsh.2 a props hσ
  · intro elems hσ
    have hred1 : (resolveV load (fuel + 1) (JVal.ref a) σ).1
        = JVal.ref (resolveListF (resolveV load fuel) elems σ).2.length := by
      simp only [resolveV, hσ]
    have hred2 : (resolveV load (fuel + 1) (JVal.ref a) σ).2
        = (resolveListF (resolveV load fuel) elems σ).2
            ++ [JNode.arr (resolveListF (resolveV load fuel) elems σ).1] := by
      simp only [resolveV, hσ]
    refine ⟨(resolveListF (resolveV load fuel) elems σ).2.length,
            (resolveListF (resolveV load fuel) elems σ).1, hred1, ?_, ?_⟩
    · exact (resolveListF_shape (resolveV load fuel)
        (resolveV_shape load Hload fuel) elems σ).1
    · rw [hred2]
      exact List.getElem?_concat_length _ _

/-- C9 witness: resolving a one-key object returns the same address. -/
theorem resolver_frame_witness :
    (resolveV (fun _ σ => (JVal.lit JLit.null, σ)) 1
        (JVal.ref 0) [JNode.obj [(("x"), JVal.lit (JLit.num 1))]]).1 = JVal.ref 0 :=
  ((resolver_frame (fun _ σ => (JVal.lit JLit.null, σ)) 0
      [JNode.obj [(("x"), JVal.lit (JLit.num 1))]] 0
      (fun _ σ0 => ⟨[], (List.append_nil σ0).symm⟩)).1
    [(("x"), JVal.lit (JLit.num 1))] rfl).1

/-- C10: a value substituted for a token is emitted verbatim and never itself
    re-scanned: one step of the replace run emits the leading text and the
    looked-up value unchanged and recurses only on the trailing text, which
    is a strictly shorter suffix of the ORIGINAL input; moreover the total
    number of substitutions of a run is bounded by the number of dollar
    characters of the original string, so expansion always terminates. -/
theorem replace_no_rescan :
    ∀ (env : List (List Char × List Char)) (cs l n t : List Char),
      jsExec cs = some (l, n, t) →
      replaceL env cs = l ++ envVal env n ++ replaceL env t ∧
      (∃ pre, cs = pre ++ t ∧ t.length < cs.length) ∧
      countSubs cs ≤ cs.count '$' := by
  intro env cs l n t h
  obtain ⟨hcs, -⟩ := rexec_sound cs l n t (jsExec_rexec cs _ h)
  refine ⟨replaceL_step env cs l n t h,
    ⟨l ++ '$' :: '\x7b' :: n ++ ['\x7d'], ?_, ?_⟩, countSubsFuel_le _ cs⟩
  · rw [hcs]
    simp
  · rw [hcs]
    simp [List.length_append]
    omega

/-- C10 witness: a context value that itself contains a token delimiter is
    inserted verbatim and not expanded again. -/
theorem replace_no_rescan_witness :
    replaceL [((['x']), (['$', '\x7b', 'y', '\x7d']))] ['$', '\x7b', 'x', '\x7d'] =
      [] ++ envVal [((['x']), (['$', '\x7b', 'y', '\x7d']))] ['x']
        ++ replaceL [((['x']), (['$', '\x7b', 'y', '\x7d']))] [] :=
  (replace_no_rescan [((['x']), (['$', '\x7b', 'y', '\x7d']))]
    ['$', '\x7b', 'x', '\x7d'] [] ['x'] [] rfl).1
